import Mathlib

/-!
# Verification of the hypercode-cli generation-plan subsystem

A shallow embedding of the core of `hypercode-cli` (the generation-plan
execution subsystem and the task ledger), translated from the TypeScript
sources:

* `src/core/todo-manager.ts`   — the Task Ledger (`TodoManager`);
* `src/core/file-generator.ts` — Content Parser, Plan Builder, Execution
  Engine (`FileGenerator`);
* `src/core/git-manager.ts`    — git configuration record and the
  `DirectorySafety` boundary (`isPathSafe` / `validatePath`).

Modelling conventions:

* JavaScript `Date` values are modelled by `Nat` epoch milliseconds; the
  current time is passed explicitly (`now`) where the source calls
  `new Date()`.
* Filesystem, git-subprocess and interactive-prompt effects are modelled as
  explicit oracles (function-valued parameters), one outcome per call site,
  so a run of the effectful code corresponds to some choice of oracle.
* Fallible TypeScript code (`throw` / `try`) is modelled with
  `Except String`.
* Strings are ASCII in all concrete inputs; character-level operations
  (`toLowerCase`, `\s`, `trim`) are modelled on the ASCII fragment.
-/

namespace HyperCode

/-! ## Task Ledger data model (src/core/todo-manager.ts) -/

/-- The `Todo['status']` from todo-manager.ts. -/
inductive TodoStatus
  | pending
  | in_progress
  | completed
  | skipped
  | blocked
deriving DecidableEq, Repr

/-- The `Todo['priority']` from todo-manager.ts. -/
inductive TodoPriority
  | low
  | medium
  | high
deriving DecidableEq, Repr

/-- The `TodoGroup['status']` from todo-manager.ts. -/
inductive GroupStatus
  | pending
  | in_progress
  | completed
  | cancelled
deriving DecidableEq, Repr

/-- The `Todo` interface. `createdAt`/`updatedAt` are epoch milliseconds. -/
structure Todo where
  id : String
  title : String
  description : Option String := none
  status : TodoStatus
  priority : TodoPriority
  createdAt : Nat
  updatedAt : Nat
  estimatedTokens : Option Nat := none
  actualTokens : Option Nat := none
  dependencies : List String := []
  tags : List String := []
deriving DecidableEq, Repr

/-- The `TodoGroup` interface. -/
structure TodoGroup where
  id : String
  title : String
  description : Option String := none
  todos : List Todo
  status : GroupStatus
  createdAt : Nat
  updatedAt : Nat
  estimatedTokens : Option Nat := none
  actualTokens : Option Nat := none
deriving DecidableEq, Repr

/-- The in-memory state of a `TodoManager`: its group list and the id of the
current group (the `currentGroup` object reference in the source). The
persisted file path and session id play no role in the ledger logic. -/
structure TodoManager where
  groups : List TodoGroup
  currentGroupId : Option String := none
deriving DecidableEq, Repr

/-! ## Task Ledger operations -/

/-- The `TodoManager.getAllTodos`: `this.groups.flatMap(g => g.todos)`. -/
def TodoManager.getAllTodos (m : TodoManager) : List Todo :=
  (m.groups.map TodoGroup.todos).flatten

/-- The group scan inside `findTodo`: first group containing a todo with the
given id, together with that todo (`group.todos.find(t => t.id === todoId)`). -/
def findTodoInGroups (groups : List TodoGroup) (todoId : String) :
    Option (TodoGroup × Todo) :=
  groups.findSome? fun g =>
    (g.todos.find? fun t => t.id == todoId).map fun t => (g, t)

/-- The `TodoManager.findTodo`: scan the groups in order. -/
def TodoManager.findTodo (m : TodoManager) (todoId : String) :
    Option (TodoGroup × Todo) :=
  findTodoInGroups m.groups todoId

/-- The todo component of `findTodo` (the source destructures the returned
record as `{ group, todo }`). -/
def TodoManager.lookupTodo (m : TodoManager) (todoId : String) : Option Todo :=
  (m.findTodo todoId).map Prod.snd

/-- The `TodoManager.areDependenciesMet`: every listed dependency id must resolve
(via `findTodo`) to a todo whose status is `completed`; an id that resolves to
no todo yields `false` (`depTodo?.status === 'completed'` with
`depTodo === null`). -/
def TodoManager.areDependenciesMet (m : TodoManager) (todo : Todo) : Bool :=
  todo.dependencies.all fun depId =>
    match m.findTodo depId with
    | some (_, depTodo) => depTodo.status == TodoStatus.completed
    | none => false

/-- The `priorityWeight` table inside `getNextTodo`:
`{ high: 3, medium: 2, low: 1 }`. -/
def priorityWeight : TodoPriority → Nat
  | .high => 3
  | .medium => 2
  | .low => 1

/-- The comparator of `getNextTodo`, as the strict "sorts before" test:
`sortsBefore a b = true` iff the comparator returns a negative number on
`(a, b)`, i.e. `a` has the larger priority weight, or equal weight and the
earlier creation time. -/
def sortsBefore (a b : Todo) : Bool :=
  if priorityWeight a.priority != priorityWeight b.priority then
    priorityWeight b.priority < priorityWeight a.priority
  else
    a.createdAt < b.createdAt

/-- One step of the stable-minimum fold: the accumulator is replaced only when
the candidate sorts *strictly* before it. -/
def pickBetter (acc : Option Todo) (t : Todo) : Option Todo :=
  match acc with
  | none => some t
  | some b => if sortsBefore t b then some t else some b

/-- First minimum of a list under the comparator: `Array.prototype.sort` is
stable, so `sorted[0]` is the earliest-listed element that no other element
sorts strictly before; this fold computes exactly that element. -/
def firstMin (l : List Todo) : Option Todo :=
  l.foldl pickBetter none

/-- The filter stage of `getNextTodo`: pending todos whose dependencies are
met, in ledger order. -/
def TodoManager.eligibleTodos (m : TodoManager) : List Todo :=
  (m.getAllTodos.filter fun t => t.status == TodoStatus.pending).filter
    fun t => m.areDependenciesMet t

/-- The `TodoManager.getNextTodo`: filter the pending, dependency-met todos, sort
by the priority/creation comparator, and return the first (or `null`). -/
def TodoManager.getNextTodo (m : TodoManager) : Option Todo :=
  firstMin m.eligibleTodos

/-- The `TodoManager.getCurrentTodo`: first todo with status `in_progress`. -/
def TodoManager.getCurrentTodo (m : TodoManager) : Option Todo :=
  (m.getAllTodos.filter fun t => t.status == TodoStatus.in_progress).head?

/-- The `todos.filter(t => t.status === 'completed').length` in `updateGroupStatus`. -/
def completedCount (todos : List Todo) : Nat :=
  (todos.filter fun t => t.status == TodoStatus.completed).length

/-- The `todos.filter(t => t.status === 'in_progress').length` in `updateGroupStatus`. -/
def inProgressCount (todos : List Todo) : Nat :=
  (todos.filter fun t => t.status == TodoStatus.in_progress).length

/-- The `TodoManager.updateGroupStatus`: derive a group status from the member
todos.  An empty group is set to `pending` (early return, `updatedAt` left
unchanged); otherwise `completed` when every member is completed,
`in_progress` when some member is in progress or completed, else `pending`. -/
def updateGroupStatus (g : TodoGroup) (now : Nat) : TodoGroup :=
  if g.todos.length = 0 then
    { g with status := GroupStatus.pending }
  else if completedCount g.todos = g.todos.length then
    { g with status := GroupStatus.completed, updatedAt := now }
  else if 0 < inProgressCount g.todos ∨ 0 < completedCount g.todos then
    { g with status := GroupStatus.in_progress, updatedAt := now }
  else
    { g with status := GroupStatus.pending, updatedAt := now }

/-- The mutation `updateTodoStatus` performs on the found todo: set the new
status, refresh `updatedAt`, and record `actualTokens` when provided. -/
def applyStatusChange (status : TodoStatus) (now : Nat)
    (actualTokens : Option Nat) (t : Todo) : Todo :=
  let t1 := { t with status := status, updatedAt := now }
  match actualTokens with
  | some n => { t1 with actualTokens := some n }
  | none => t1

/-- Replace (in place) the first todo with the given id. -/
def updateTodoInList (todoId : String) (f : Todo → Todo) :
    List Todo → List Todo
  | [] => []
  | t :: ts =>
    if t.id == todoId then f t :: ts else t :: updateTodoInList todoId f ts

/-- Apply the status mutation inside the first group containing the id, then
re-derive that group status (`this.updateGroupStatus(group)`). -/
def updateGroupsTodoStatus (todoId : String) (status : TodoStatus) (now : Nat)
    (actualTokens : Option Nat) : List TodoGroup → List TodoGroup
  | [] => []
  | g :: gs =>
    if g.todos.any (fun t => t.id == todoId) then
      let newTodos := updateTodoInList todoId (applyStatusChange status now actualTokens) g.todos
      updateGroupStatus { g with todos := newTodos } now :: gs
    else
      g :: updateGroupsTodoStatus todoId status now actualTokens gs

/-- The `TodoManager.updateTodoStatus`: throws when the id resolves to no todo;
otherwise mutates the todo (status, `updatedAt`, optional `actualTokens`) and
re-derives the containing group status.  Note: the source imposes **no**
restriction on the old status — any transition is applied. -/
def TodoManager.updateTodoStatus (m : TodoManager) (todoId : String)
    (status : TodoStatus) (now : Nat) (actualTokens : Option Nat) :
    Except String TodoManager :=
  match m.findTodo todoId with
  | none => Except.error ("Todo with id " ++ todoId ++ " not found")
  | some _ =>
    Except.ok
      { m with groups := updateGroupsTodoStatus todoId status now actualTokens m.groups }

/-- The `TodoManager.continueFromLastCheckpoint`: return the in-progress todo if
one exists; otherwise promote the next eligible pending todo to
`in_progress` and return it.  The pair is (returned todo, resulting ledger). -/
def TodoManager.continueFromLastCheckpoint (m : TodoManager) (now : Nat) :
    Except String (Option Todo × TodoManager) :=
  match m.getCurrentTodo with
  | some t => Except.ok (some t, m)
  | none =>
    match m.getNextTodo with
    | some t =>
      (m.updateTodoStatus t.id TodoStatus.in_progress now none).map
        fun m2 => (some t, m2)
    | none => Except.ok (none, m)

/-- The three terminal statuses of the individual-todo state machine. -/
def isTerminalStatus (s : TodoStatus) : Bool :=
  s == TodoStatus.completed || s == TodoStatus.skipped || s == TodoStatus.blocked

/-! ## Claim theorems: group-status invariant -/

/-- A group with zero members, whose status is (vacuously) not derived as
`completed` by `updateGroupStatus`. -/
def emptyGroupEx : TodoGroup :=
  { id := "g0", title := "Empty", todos := [], status := GroupStatus.in_progress,
    createdAt := 0, updatedAt := 0 }

/-! ## Claim theorems: terminal todo statuses -/

/-- A completed (terminal) todo. -/
def doneTodoEx : Todo where
  id := "a1"
  title := "done step"
  status := TodoStatus.completed
  priority := TodoPriority.medium
  createdAt := 0
  updatedAt := 0

/-- A group holding only the completed todo. -/
def doneGroupEx : TodoGroup where
  id := "g1"
  title := "G"
  todos := [doneTodoEx]
  status := GroupStatus.completed
  createdAt := 0
  updatedAt := 0

/-- A ledger holding only the completed todo. -/
def doneManagerEx : TodoManager where
  groups := [doneGroupEx]

/-! ## Ledger fixtures and witnesses -/

/-- Pending low-priority todo, created first. -/
def tLowEx : Todo where
  id := "t1"
  title := "low"
  status := TodoStatus.pending
  priority := TodoPriority.low
  createdAt := 1
  updatedAt := 1

/-- Pending high-priority todo, created second. -/
def tHighEx : Todo where
  id := "t2"
  title := "high"
  status := TodoStatus.pending
  priority := TodoPriority.high
  createdAt := 2
  updatedAt := 2

/-- Pending medium-priority todo, created third. -/
def tMedEx : Todo where
  id := "t3"
  title := "medium"
  status := TodoStatus.pending
  priority := TodoPriority.medium
  createdAt := 3
  updatedAt := 3

/-- High-priority pending todo gated on a dependency id that resolves to no
todo in the ledger. -/
def tGatedEx : Todo where
  id := "t4"
  title := "gated"
  status := TodoStatus.pending
  priority := TodoPriority.high
  createdAt := 0
  updatedAt := 0
  dependencies := ["missing-dep"]

/-- Group with the three pending todos plus the gated one. -/
def sessionGroupEx : TodoGroup where
  id := "g1"
  title := "Session"
  todos := [tLowEx, tHighEx, tMedEx, tGatedEx]
  status := GroupStatus.pending
  createdAt := 0
  updatedAt := 0

/-- Ledger with the three pending todos plus the gated one. -/
def ledgerEx : TodoManager where
  groups := [sessionGroupEx]

/-- Todo whose single dependency id matches nothing in its ledger. -/
def ghostDepTodoEx : Todo where
  id := "u1"
  title := "ghost gated"
  status := TodoStatus.pending
  priority := TodoPriority.high
  createdAt := 0
  updatedAt := 0
  dependencies := ["ghost"]

/-- Group holding only `ghostDepTodoEx`. -/
def ghostGroupEx : TodoGroup where
  id := "g1"
  title := "G"
  todos := [ghostDepTodoEx]
  status := GroupStatus.pending
  createdAt := 0
  updatedAt := 0

/-- Single-todo ledger around `ghostDepTodoEx`. -/
def ghostLedgerEx : TodoManager where
  groups := [ghostGroupEx]

/-- Group with one completed and one pending todo (distinct ids). -/
def mixedGroupEx : TodoGroup where
  id := "g1"
  title := "G"
  todos := [doneTodoEx, tLowEx]
  status := GroupStatus.in_progress
  createdAt := 0
  updatedAt := 0

/-- Ledger with one completed and one pending todo (distinct ids). -/
def mixedManagerEx : TodoManager where
  groups := [mixedGroupEx]

/-! ## Paths and the Safety Boundary (src/core/directory-safety.ts)

POSIX absolute paths over ASCII, as produced by Node `path.resolve`.
-/

/-- The ASCII fragment of the JavaScript `\s` class (and of `trim`). -/
def isJsWhitespace (c : Char) : Bool :=
  c == ' ' || c == '\t' || c == '\n' || c == '\r' || c == '\x0b' || c == '\x0c'

/-- The `String.prototype.trim`. -/
def jsTrim (s : String) : String :=
  String.mk (((s.toList.dropWhile isJsWhitespace).reverse.dropWhile isJsWhitespace).reverse)

/-- Drop a leading whitespace run (the `\s*` tail of a matched prefix). -/
def dropLeadingJsWhitespace (s : String) : String :=
  String.mk (s.toList.dropWhile isJsWhitespace)

/-- The `String.prototype.split` on a one-character separator (splitting `""`
yields `[""]`, like JavaScript). -/
def splitOnChar (sep : Char) : List Char → List (List Char)
  | [] => [[]]
  | c :: rest =>
    match splitOnChar sep rest with
    | [] => [[c]]
    | h :: t => if c == sep then [] :: h :: t else (c :: h) :: t

/-- The `String.prototype.startsWith` (and `String.startsWith` of the source). -/
def strStartsWith (s pre : String) : Bool :=
  pre.toList.isPrefixOf s.toList

/-- Drop the first `n` characters. -/
def strDrop (s : String) (n : Nat) : String :=
  String.mk (s.toList.drop n)

/-- Node `path.resolve` applied to one absolute POSIX path: split on `/`,
drop empty and `.` segments, let `..` pop (and vanish at the root), and
re-join. -/
def normalizePath (p : String) : String :=
  let stack := ((splitOnChar '/' p.toList).map String.mk).foldl
    (fun stack c =>
      if c = "" || c = "." then stack
      else if c = ".." then stack.dropLast
      else stack ++ [c])
    ([] : List String)
  "/" ++ String.intercalate "/" stack

/-- Node `path.resolve(base, rel)` for an absolute POSIX `base`. -/
def pathResolve (base rel : String) : String :=
  if strStartsWith rel "/" then normalizePath rel
  else normalizePath (base ++ "/" ++ rel)

/-- The state of `DirectorySafety` that its checks read: its project root
(computed in the source from `process.cwd()` and marker files; here a plain
field, always an absolute path). -/
structure DirectorySafety where
  projectRoot : String
deriving DecidableEq, Repr

/-- The `DirectorySafety.isPathSafe`: resolve both paths and test
`resolvedPath.startsWith(resolvedRoot)` — a plain string-prefix check. -/
def DirectorySafety.isPathSafe (ds : DirectorySafety) (targetPath : String) : Bool :=
  strStartsWith (normalizePath targetPath) (normalizePath ds.projectRoot)

/-- The `DirectorySafety.validatePath`: throws exactly when `isPathSafe` is
false (the thrown message quotes the offending path; quotes elided here). -/
def DirectorySafety.validatePath (ds : DirectorySafety) (targetPath : String) :
    Except String Unit :=
  if ds.isPathSafe targetPath then Except.ok ()
  else
    Except.error ("Access denied: Path " ++ targetPath ++
      " is outside project boundary " ++ ds.projectRoot)

/-- Modelled from the spec (§2 Safety Boundary, §8): a resolved absolute path
lies *inside* the project root iff it is the root itself or sits beneath the
root directory — i.e. extends the root with a `/` separator.  This is the
spec notion the `isPathSafe` prefix check is compared against. -/
def resolvesInsideRoot (projectRoot resolvedPath : String) : Bool :=
  resolvedPath == normalizePath projectRoot ||
    strStartsWith resolvedPath (normalizePath projectRoot ++ "/")

/-! ## Content Parser (src/core/file-generator.ts)

The two regex passes of `parseGeneratedContent` are modelled by taking the
regex engine's match lists as input (the engine is an external library):

* `fenceMatches` — per fenced-region match of `fileRegex`, the optional
  path-comment capture (group 1, the text after `//`) and the code capture
  (group 2);
* `explicitMatches` — the path captures of `explicitFileRegex`
  (`Create/Update/Modify <path>`), in text order.

The loop bodies operating on those matches are translated faithfully.
-/

/-- ASCII `toLowerCase`. -/
def asciiLower (c : Char) : Char :=
  if 'A' ≤ c ∧ c ≤ 'Z' then Char.ofNat (c.toNat + 32) else c

/-- ASCII `String.prototype.toLowerCase`. -/
def asciiLowerString (s : String) : String :=
  String.mk (s.toList.map asciiLower)

/-- The `^(\/\/|#|<!--)\s*` strip at the top of `extractFilePath`. -/
def stripCommentMarker (comment : String) : String :=
  if strStartsWith comment "//" then dropLeadingJsWhitespace (strDrop comment 2)
  else if strStartsWith comment "#" then dropLeadingJsWhitespace (strDrop comment 1)
  else if strStartsWith comment "<!--" then dropLeadingJsWhitespace (strDrop comment 4)
  else comment

/-- The `File:`/`Path:` patterns of `extractFilePath`.  The source regexes
are written `^File:\\s*(.+)$` (with `/i`): the doubled backslash makes them
demand a literal backslash after the colon, then a run of the letter `s`
(`s*`), then the capture; the final `.trim()` of the caller is applied to
the capture.  When everything after the `s`-run is empty the engine
backtracks one `s` into the capture. -/
def matchEscapedPrefixPattern (prefixLower : String) (cleaned : String) :
    Option String :=
  let cs := cleaned.toList
  let pl := prefixLower.toList
  if (cs.take pl.length).map asciiLower = pl then
    match cs.drop pl.length with
    | '\\' :: rest =>
      let rest2 := rest.dropWhile fun c => asciiLower c == 's'
      if rest2 ≠ [] then some (jsTrim (String.mk rest2))
      else if rest ≠ [] then some (String.mk [rest.getLastD 's'])
      else none
    | _ => none
  else none

/-- The `FileGenerator.extractFilePath`: strip a leading comment marker, trim,
then try the path patterns in order.  Patterns 3 (the escaped-extension
pattern) and 4 (the catch-all `^(.+)$`) both capture the whole cleaned
string, so they collapse into the final non-empty case. -/
def extractFilePath (comment : String) : Option String :=
  let cleaned := jsTrim (stripCommentMarker comment)
  match matchEscapedPrefixPattern "file:" cleaned with
  | some c => some c
  | none =>
    match matchEscapedPrefixPattern "path:" cleaned with
    | some c => some c
    | none => if cleaned = "" then none else some (jsTrim cleaned)

/-- Node `path.basename` for POSIX paths. -/
def pathBasename (p : String) : String :=
  let cs := p.toList.reverse.dropWhile fun c => c == '/'
  String.mk ((cs.takeWhile fun c => c != '/').reverse)

/-- Node `path.extname` for POSIX paths: the suffix of the basename from its
last `.`, empty when there is no dot or only a leading dot. -/
def pathExtname (p : String) : String :=
  match (pathBasename p).toList with
  | [] => ""
  | _ :: rest =>
    if rest.contains '.' then
      String.mk ('.' :: (rest.reverse.takeWhile fun c => c != '.').reverse)
    else ""

/-- The `FileGenerator.getFileType`: the extension-to-description table. -/
def getFileType (filePath : String) : String :=
  let ext := asciiLowerString (pathExtname filePath)
  if ext = ".ts" then "TypeScript file"
  else if ext = ".tsx" then "React component"
  else if ext = ".js" then "JavaScript file"
  else if ext = ".jsx" then "React component"
  else if ext = ".py" then "Python module"
  else if ext = ".go" then "Go file"
  else if ext = ".rs" then "Rust file"
  else if ext = ".java" then "Java class"
  else if ext = ".cpp" then "C++ file"
  else if ext = ".h" then "Header file"
  else if ext = ".css" then "Stylesheet"
  else if ext = ".scss" then "Sass stylesheet"
  else if ext = ".json" then "Configuration file"
  else if ext = ".md" then "Documentation"
  else if ext = ".yml" then "YAML configuration"
  else if ext = ".yaml" then "YAML configuration"
  else "file"

/-- The `FileGenerator.generateFileDescription`. -/
def generateFileDescription (filePath : String) (fileExists : Bool) : String :=
  (if fileExists then "Modify" else "Create") ++ " " ++ getFileType filePath ++
    " " ++ pathBasename filePath

/-! ## Plan Builder: sanitizeFeatureName (src/core/file-generator.ts:203) -/

/-- The first replace of `sanitizeFeatureName`, `[^a-z0-9\\s-]` with the
doubled backslash taken literally: the negated class spares lowercase
letters, digits, a literal backslash, the letter `s`, and the hyphen —
whitespace is *not* spared and is deleted. -/
def keepCharSanitize (c : Char) : Bool :=
  decide ('a' ≤ c ∧ c ≤ 'z') || decide ('0' ≤ c ∧ c ≤ '9') ||
    c == '\\' || c == '-'

/-- The second replace, `/\\s+/g → '-'`, taken literally: each occurrence of
a literal backslash followed by a run of the letter `s` becomes one hyphen.
The first argument tracks whether the scanner is inside the `s`-run of a
match. -/
def repBSAux : Bool → List Char → List Char
  | _, [] => []
  | true, 's' :: rest => repBSAux true rest
  | _, '\\' :: 's' :: rest => '-' :: repBSAux true rest
  | _, c :: rest => c :: repBSAux false rest

/-- The third replace (a run of hyphens becomes a single hyphen). -/
def collapseHyphensAux (inRun : Bool) : List Char → List Char
  | [] => []
  | c :: rest =>
    if c == '-' then
      if inRun then collapseHyphensAux true rest
      else '-' :: collapseHyphensAux true rest
    else c :: collapseHyphensAux false rest

/-- The `FileGenerator.sanitizeFeatureName`: lowercase, the three replaces above
(with their doubled backslashes taken literally), then `substring(0, 50)`. -/
def sanitizeFeatureName (feature : String) : String :=
  let lowered := feature.toList.map asciiLower
  let stripped := lowered.filter keepCharSanitize
  let hyphened := repBSAux false stripped
  let collapsed := collapseHyphensAux false hyphened
  String.mk (collapsed.take 50)

/-- Whitespace runs to single hyphens (the `\s+ → '-'` step the spec
describes). -/
def wsRunsToHyphenAux (inRun : Bool) : List Char → List Char
  | [] => []
  | c :: rest =>
    if isJsWhitespace c then
      if inRun then wsRunsToHyphenAux true rest
      else '-' :: wsRunsToHyphenAux true rest
    else c :: wsRunsToHyphenAux false rest

/-- Modelled from the spec (§4.2): "derive a branch name by slugifying the
feature text (lowercase, strip non-alphanumerics, collapse whitespace to
single hyphens, cap length)" — whitespace and hyphens survive the stripping
step so that whitespace runs can then become single hyphens; length capped
at 50 like the code. -/
def specSlug (feature : String) : String :=
  let lowered := feature.toList.map asciiLower
  let stripped := lowered.filter fun c =>
    decide ('a' ≤ c ∧ c ≤ 'z') || decide ('0' ≤ c ∧ c ≤ '9') ||
      isJsWhitespace c || c == '-'
  let hyphened := wsRunsToHyphenAux false stripped
  let collapsed := collapseHyphensAux false hyphened
  String.mk (collapsed.take 50)

/-! ## Plan data model (src/core/file-generator.ts, src/core/git-manager.ts) -/

/-- The `FileOperation['type']`. -/
inductive OpType
  | create
  | modify
  | delete
deriving DecidableEq, Repr

/-- The `FileOperation` interface. -/
structure FileOperation where
  path : String
  type : OpType
  content : String
  backup : Option String := none
  description : String
  estimatedLines : Nat
deriving DecidableEq, Repr

/-- The `FileGenerationPlan['gitStrategy']`. -/
inductive GitStrategy
  | newBranch
  | currentBranch
deriving DecidableEq, Repr

/-- The `GitConfig` interface of git-manager.ts. -/
structure GitConfig where
  autoCommit : Bool
  createFeatureBranches : Bool
  autoPush : Bool
  commitMessagePrefixStr : String
  branchPrefixStr : String
deriving DecidableEq, Repr

/-- The `GitManager.getDefaultConfig`. -/
def getDefaultConfig : GitConfig where
  autoCommit := false
  createFeatureBranches := true
  autoPush := false
  commitMessagePrefixStr := "[HyperCode]"
  branchPrefixStr := "hypercode-"

/-- The `FileGenerationPlan` interface (`estimatedCost`, a display-only
number, is carried as a `Nat`). -/
structure FileGenerationPlan where
  feature : String
  files : List FileOperation
  estimatedCost : Nat
  gitStrategy : GitStrategy
  branchName : Option String := none
  summary : String
deriving DecidableEq, Repr

/-- The `GenerationResult` interface. -/
structure GenerationResult where
  success : Bool
  filesCreated : List String
  filesModified : List String
  filesSkipped : List String
  errors : List String
  gitCommit : Option String := none
  branchCreated : Option String := none
deriving DecidableEq, Repr

/-- The filesystem reads the parser performs (`fs.existsSync`,
`fs.readFileSync`), as an oracle keyed by the full path. -/
structure FsEnv where
  fileExists : String → Bool
  readFile : String → String

/-- The `FileGenerator` state the parser and plan builder read: the
constructor-supplied project root, the `DirectorySafety` instance (which in
the source derives its *own* root from `process.cwd()` — the two roots
coincide in a normal run but are distinct fields), and the git config. -/
structure FileGenerator where
  projectRoot : String
  directorySafety : DirectorySafety
  gitConfig : GitConfig

/-! ## Content Parser operations -/

/-- The body of the first `while` loop of `parseGeneratedContent`, for one
fenced-region match: extract a path from the path comment (if any), resolve
it, accept it only if `validatePath` does not throw, and build the operation
(kind from on-disk existence, backup of the prior content for modifies). -/
def fenceOp (fg : FileGenerator) (fsEnv : FsEnv) (m : Option String × String) :
    Option FileOperation :=
  match m.1 with
  | none => none
  | some pathComment =>
    match extractFilePath pathComment with
    | none => none
    | some filePath =>
      let fullPath := pathResolve fg.projectRoot filePath
      if fg.directorySafety.isPathSafe fullPath then
        some
          { path := filePath
            type := if fsEnv.fileExists fullPath then OpType.modify else OpType.create
            content := jsTrim m.2
            backup := if fsEnv.fileExists fullPath then some (fsEnv.readFile fullPath) else none
            description := generateFileDescription filePath (fsEnv.fileExists fullPath)
            estimatedLines := (splitOnChar '\n' m.2.toList).length }
      else none

/-- The body of the second `while` loop, for one explicit
`Create/Update/Modify <path>` mention (stub content, no backup). -/
def explicitOp (fg : FileGenerator) (fsEnv : FsEnv) (filePath : String) :
    Option FileOperation :=
  let fullPath := pathResolve fg.projectRoot filePath
  if fg.directorySafety.isPathSafe fullPath then
    some
      { path := filePath
        type := if fsEnv.fileExists fullPath then OpType.modify else OpType.create
        content := "// TODO: Implementation needed"
        description := generateFileDescription filePath (fsEnv.fileExists fullPath)
        estimatedLines := 10 }
  else none

/-- The first `while` loop: one candidate operation per fenced-region match,
pushed in match order, with **no** duplicate-path check. -/
def parsePrimary (fg : FileGenerator) (fsEnv : FsEnv)
    (fenceMatches : List (Option String × String)) : List FileOperation :=
  fenceMatches.filterMap (fenceOp fg fsEnv)

/-- The second `while` loop: each explicit mention is appended only when no
operation with the same path is already in `files`
(`!files.some(f => f.path === filePath)`). -/
def parseFallback (fg : FileGenerator) (fsEnv : FsEnv) :
    List String → List FileOperation → List FileOperation
  | [], files => files
  | fp :: rest, files =>
    if files.any fun f => f.path == fp then parseFallback fg fsEnv rest files
    else
      match explicitOp fg fsEnv fp with
      | some op => parseFallback fg fsEnv rest (files ++ [op])
      | none => parseFallback fg fsEnv rest files

/-- The `FileGenerator.parseGeneratedContent`: the fenced-region pass followed by
the explicit-mention fallback pass over the shared `files` array. -/
def parseGeneratedContent (fg : FileGenerator) (fsEnv : FsEnv)
    (fenceMatches : List (Option String × String))
    (explicitMatches : List String) : List FileOperation :=
  parseFallback fg fsEnv explicitMatches (parsePrimary fg fsEnv fenceMatches)

/-! ## Plan Builder -/

/-- The `${n > 1 ? 's' : ''}` pluralisation. -/
def pluralS (n : Nat) : String :=
  if n > 1 then "s" else ""

/-- The `FileGenerator.generatePlanSummary`. -/
def generatePlanSummary (files : List FileOperation) (feature : String) : String :=
  let createCount := (files.filter fun f => f.type == OpType.create).length
  let modifyCount := (files.filter fun f => f.type == OpType.modify).length
  let totalLines := (files.map FileOperation.estimatedLines).sum
  let parts :=
    (if createCount > 0 then
      [toString createCount ++ " new file" ++ pluralS createCount]
    else []) ++
    (if modifyCount > 0 then
      [toString modifyCount ++ " modified file" ++ pluralS modifyCount]
    else [])
  "Generate " ++ feature ++ ": " ++ String.intercalate ", " parts ++
    " (~" ++ toString totalLines ++ " lines)"

/-- The `FileGenerator.createGenerationPlan`: parse the generated content, pick
the git strategy from the config flag, derive the branch name
(`branchPrefix` + sanitized feature) when feature branches are enabled, and
assemble the plan. -/
def FileGenerator.createGenerationPlan (fg : FileGenerator) (fsEnv : FsEnv)
    (feature : String) (fenceMatches : List (Option String × String))
    (explicitMatches : List String) (estimatedCost : Nat) : FileGenerationPlan :=
  let files := parseGeneratedContent fg fsEnv fenceMatches explicitMatches
  { feature := feature
    files := files
    estimatedCost := estimatedCost
    gitStrategy :=
      if fg.gitConfig.createFeatureBranches then GitStrategy.newBranch
      else GitStrategy.currentBranch
    branchName :=
      if fg.gitConfig.createFeatureBranches then
        some (fg.gitConfig.branchPrefixStr ++ sanitizeFeatureName feature)
      else none
    summary := generatePlanSummary files feature }

/-! ## Claim theorems: Safety Boundary and Content Parser -/

/-- A `FileGenerator` over project root `/proj` whose `DirectorySafety`
derived the same root. -/
def projFgEx : FileGenerator :=
  ⟨"/proj", ⟨"/proj"⟩, getDefaultConfig⟩

/-- A filesystem oracle on which no file exists. -/
def noFsEx : FsEnv :=
  ⟨fun _ => false, fun _ => ""⟩

/-! ## Execution Engine / Approval State Machine
    (FileGenerator.executeGenerationPlan, src/core/file-generator.ts:224)

The injected decision capability and the external effects (filesystem write,
branch creation, commit) are modelled as oracles, one outcome per call site;
`approvalCallback` and `executeFileOperation` are keyed by the loop index of
the operation being processed.
-/

/-- The decision vocabulary of the approval callback. -/
inductive Decision
  | approve
  | edit
  | skip
  | auto
deriving DecidableEq, Repr

/-- The external effects one `executeGenerationPlan` run performs. -/
structure ExecEnv where
  approvalCallback : Nat → Decision
  executeFileOperation : Nat → Except String Unit
  isGitRepo : Bool
  createBranchResult : Except String Unit
  commitResult : Except String Unit
  generateCommitMessage : List String → String → String

/-- The mutable state of the per-operation loop: the `autoMode` flag, the
incrementally built result, and (instrumentation for the statements below)
the loop indices at which `approvalCallback` was actually awaited. -/
structure LoopState where
  autoMode : Bool
  result : GenerationResult
  invoked : List Nat
deriving Repr

/-- The `Failed to process ${operation.path}: ${error}`. -/
def failMsg (op : FileOperation) (e : String) : String :=
  "Failed to process " ++ op.path ++ ": " ++ e

/-- The `Edit mode not yet implemented for ${operation.path}`. -/
def editMsg (op : FileOperation) : String :=
  "Edit mode not yet implemented for " ++ op.path

/-- The `case 'approve'` arm together with the surrounding `try`/`catch`:
run `executeFileOperation`; on success record the path under created or
modified according to the operation type (deletes are recorded nowhere); on a
throw push the error and clear `success`. -/
def applyApproved (env : ExecEnv) (i : Nat) (op : FileOperation)
    (r : GenerationResult) : GenerationResult :=
  match env.executeFileOperation i with
  | Except.ok _ =>
    match op.type with
    | OpType.create => { r with filesCreated := r.filesCreated ++ [op.path] }
    | OpType.modify => { r with filesModified := r.filesModified ++ [op.path] }
    | OpType.delete => r
  | Except.error e =>
    { r with errors := r.errors ++ [failMsg op e], success := false }

/-- One iteration of the `for (const operation of plan.files)` loop.  In
`autoMode` the approval is `approve` without consulting the callback;
otherwise the callback is awaited (the index is recorded), `auto` switches
`autoMode` on and degrades to `approve`, `skip` records the path as skipped,
and `edit` records it as skipped plus a diagnostic error. -/
def processOperation (env : ExecEnv) (i : Nat) (op : FileOperation)
    (s : LoopState) : LoopState :=
  if s.autoMode then
    { s with result := applyApproved env i op s.result }
  else
    match env.approvalCallback i with
    | Decision.auto =>
      { autoMode := true
        invoked := s.invoked ++ [i]
        result := applyApproved env i op s.result }
    | Decision.approve =>
      { s with
        invoked := s.invoked ++ [i]
        result := applyApproved env i op s.result }
    | Decision.skip =>
      { s with
        invoked := s.invoked ++ [i]
        result := { s.result with filesSkipped := s.result.filesSkipped ++ [op.path] } }
    | Decision.edit =>
      { s with
        invoked := s.invoked ++ [i]
        result := { s.result with
                    filesSkipped := s.result.filesSkipped ++ [op.path]
                    errors := s.result.errors ++ [editMsg op] } }

/-- The whole operation loop, over index-operation pairs. -/
def runOperations (env : ExecEnv) (s : LoopState)
    (ops : List (Nat × FileOperation)) : LoopState :=
  ops.foldl (fun s p => processOperation env p.1 p.2 s) s

/-- JavaScript truthiness of `plan.branchName` (`undefined` and `""` are
falsy). -/
def jsTruthyOptStr : Option String → Bool
  | none => false
  | some s => s != ""

/-- The result record as initialised at the top of `executeGenerationPlan`. -/
def initialResult : GenerationResult :=
  { success := true, filesCreated := [], filesModified := [],
    filesSkipped := [], errors := [] }

/-- The branch-setup block: when the strategy is `new-branch` (and a branch
name is present), inside a git repository attempt the branch creation —
success records `branchCreated`, a throw records a non-fatal error. -/
def branchSetup (env : ExecEnv) (plan : FileGenerationPlan)
    (r : GenerationResult) : GenerationResult :=
  if plan.gitStrategy == GitStrategy.newBranch && jsTruthyOptStr plan.branchName then
    if env.isGitRepo then
      match env.createBranchResult with
      | Except.ok _ => { r with branchCreated := plan.branchName }
      | Except.error e =>
        { r with errors := r.errors ++ ["Git branch creation failed: " ++ e] }
    else r
  else r

/-- The auto-commit block: when configured and at least one file was created
or modified, commit the touched files — success records the generated commit
message, a throw records a non-fatal error. -/
def autoCommitStep (env : ExecEnv) (cfg : GitConfig) (plan : FileGenerationPlan)
    (r : GenerationResult) : GenerationResult :=
  if cfg.autoCommit &&
      (decide (0 < r.filesCreated.length) || decide (0 < r.filesModified.length)) then
    let message := env.generateCommitMessage (r.filesCreated ++ r.filesModified) plan.feature
    match env.commitResult with
    | Except.ok _ => { r with gitCommit := some message }
    | Except.error e => { r with errors := r.errors ++ ["Auto-commit failed: " ++ e] }
  else r

/-- The `FileGenerator.executeGenerationPlan`, with the awaited-callback indices
exposed alongside the result. -/
def executeGenerationPlanTrace (fg : FileGenerator) (env : ExecEnv)
    (plan : FileGenerationPlan) : GenerationResult × List Nat :=
  let r1 := branchSetup env plan initialResult
  let sFinal := runOperations env ⟨false, r1, []⟩ plan.files.enum
  (autoCommitStep env fg.gitConfig plan sFinal.result, sFinal.invoked)

/-- The `FileGenerator.executeGenerationPlan`: the returned `GenerationResult`. -/
def FileGenerator.executeGenerationPlan (fg : FileGenerator) (env : ExecEnv)
    (plan : FileGenerationPlan) : GenerationResult :=
  (executeGenerationPlanTrace fg env plan).1

/-! ### Closed forms of one run

`noAutoBefore env i` says the callback returned no `auto` at any index below
`i`; the callback is consulted at `i` exactly when that holds, and the
decision that governs operation `i` is `effectiveDecision env i`. -/

def noAutoBefore (env : ExecEnv) (i : Nat) : Bool :=
  (List.range i).all fun j => env.approvalCallback j != Decision.auto

/-- The decision effectively applied to operation `i`: `approve` once some
index `≤ i` answered `auto`, the callback's answer otherwise. -/
def effectiveDecision (env : ExecEnv) (i : Nat) : Decision :=
  if noAutoBefore env (i + 1) then env.approvalCallback i else Decision.approve

/-- Per-operation contribution to `filesCreated`. -/
def opCreated (env : ExecEnv) (p : Nat × FileOperation) : Option String :=
  match effectiveDecision env p.1, env.executeFileOperation p.1, p.2.type with
  | Decision.approve, Except.ok _, OpType.create => some p.2.path
  | _, _, _ => none

/-- Per-operation contribution to `filesModified`. -/
def opModified (env : ExecEnv) (p : Nat × FileOperation) : Option String :=
  match effectiveDecision env p.1, env.executeFileOperation p.1, p.2.type with
  | Decision.approve, Except.ok _, OpType.modify => some p.2.path
  | _, _, _ => none

/-- Per-operation contribution to `filesSkipped`. -/
def opSkipped (env : ExecEnv) (p : Nat × FileOperation) : Option String :=
  match effectiveDecision env p.1 with
  | Decision.skip => some p.2.path
  | Decision.edit => some p.2.path
  | _ => none

/-- Per-operation contribution to `errors`. -/
def opError (env : ExecEnv) (p : Nat × FileOperation) : Option String :=
  match effectiveDecision env p.1, env.executeFileOperation p.1 with
  | Decision.approve, Except.error e => some (failMsg p.2 e)
  | Decision.edit, _ => some (editMsg p.2)
  | _, _ => none

/-- Whether the operation leaves `success` intact (everything except an
approved operation whose filesystem write throws). -/
def opOk (env : ExecEnv) (p : Nat × FileOperation) : Bool :=
  match effectiveDecision env p.1, env.executeFileOperation p.1 with
  | Decision.approve, Except.error _ => false
  | _, _ => true

/-- Whether the callback is consulted for the operation. -/
def opInvoked (env : ExecEnv) (p : Nat × FileOperation) : Option Nat :=
  if noAutoBefore env p.1 then some p.1 else none

/-! ## Execution fixtures and witnesses -/

/-- First `create` operation of the three-step plan. -/
def opAEx : FileOperation :=
  ⟨"a.ts", OpType.create, "a", none, "Create TypeScript file a.ts", 1⟩

/-- Second `create` operation (its write will fail). -/
def opBEx : FileOperation :=
  ⟨"b.ts", OpType.create, "b", none, "Create TypeScript file b.ts", 1⟩

/-- Third `create` operation. -/
def opCEx : FileOperation :=
  ⟨"c.ts", OpType.create, "c", none, "Create TypeScript file c.ts", 1⟩

/-- Three-operation plan on the current branch. -/
def execPlanEx : FileGenerationPlan :=
  ⟨"feat", [opAEx, opBEx, opCEx], 0, GitStrategy.currentBranch, none, ""⟩

/-- Oracle: approve everything; the write of operation 1 throws `disk full`. -/
def approveEnvEx : ExecEnv where
  approvalCallback := fun _ => Decision.approve
  executeFileOperation := fun i => if i = 1 then Except.error "disk full" else Except.ok ()
  isGitRepo := false
  createBranchResult := Except.ok ()
  commitResult := Except.ok ()
  generateCommitMessage := fun _ _ => ""

/-- Oracle: `auto` at index 0, `approve` afterwards; all writes succeed. -/
def autoEnvEx : ExecEnv where
  approvalCallback := fun i => if i = 0 then Decision.auto else Decision.approve
  executeFileOperation := fun _ => Except.ok ()
  isGitRepo := false
  createBranchResult := Except.ok ()
  commitResult := Except.ok ()
  generateCommitMessage := fun _ _ => ""

/-! Lemmas and claim theorems. -/

/-! ## Comparator lemmas -/

lemma sortsBefore_iff (a b : Todo) :
    sortsBefore a b = true ↔
      priorityWeight b.priority < priorityWeight a.priority ∨
        (priorityWeight a.priority = priorityWeight b.priority ∧
          a.createdAt < b.createdAt) := by
  unfold sortsBefore
  split
  · next h =>
    rw [bne_iff_ne] at h
    simp only [decide_eq_true_eq]
    omega
  · next h =>
    rw [bne_iff_ne, not_ne_iff] at h
    simp only [decide_eq_true_eq]
    omega

lemma sortsBefore_eq_false_iff (a b : Todo) :
    sortsBefore a b = false ↔
      priorityWeight a.priority < priorityWeight b.priority ∨
        (priorityWeight a.priority = priorityWeight b.priority ∧
          b.createdAt ≤ a.createdAt) := by
  rw [Bool.eq_false_iff, Ne, sortsBefore_iff]
  omega

lemma sortsBefore_irrefl (a : Todo) : sortsBefore a a = false := by
  rw [sortsBefore_eq_false_iff]
  omega

lemma sortsBefore_asymm {a b : Todo} (h : sortsBefore a b = true) :
    sortsBefore b a = false := by
  rw [sortsBefore_iff] at h
  rw [sortsBefore_eq_false_iff]
  omega

lemma sortsBefore_trans {a b c : Todo} (h1 : sortsBefore a b = true)
    (h2 : sortsBefore b c = true) : sortsBefore a c = true := by
  rw [sortsBefore_iff] at h1 h2 ⊢
  omega

lemma sortsBefore_false_of_lt {t b r : Todo} (h1 : sortsBefore t b = false)
    (h2 : sortsBefore r b = true) : sortsBefore t r = false := by
  rw [sortsBefore_eq_false_iff] at h1 ⊢
  rw [sortsBefore_iff] at h2
  omega

/-! ## firstMin lemmas -/

lemma foldl_pickBetter_isSome (l : List Todo) (b : Todo) :
    (l.foldl pickBetter (some b)).isSome = true := by
  induction l generalizing b with
  | nil => rfl
  | cons t ts ih =>
    rw [List.foldl_cons]
    by_cases hst : sortsBefore t b = true
    · rw [show pickBetter (some b) t = some t by simp [pickBetter, hst]]
      exact ih t
    · rw [Bool.not_eq_true] at hst
      rw [show pickBetter (some b) t = some b by simp [pickBetter, hst]]
      exact ih b

lemma foldl_pickBetter_spec (l : List Todo) :
    ∀ (b r : Todo), l.foldl pickBetter (some b) = some r →
      (r = b ∨ (r ∈ l ∧ sortsBefore r b = true)) ∧
        ∀ t ∈ l, sortsBefore t r = false := by
  induction l with
  | nil =>
    intro b r h
    rw [List.foldl_nil] at h
    injection h with h
    exact ⟨Or.inl h.symm, by intro t ht; cases ht⟩
  | cons t ts ih =>
    intro b r h
    rw [List.foldl_cons] at h
    by_cases hst : sortsBefore t b = true
    · rw [show pickBetter (some b) t = some t by simp [pickBetter, hst]] at h
      obtain ⟨h1, h2⟩ := ih t r h
      constructor
      · rcases h1 with rfl | ⟨hm, hrt⟩
        · exact Or.inr ⟨List.mem_cons_self _ _, hst⟩
        · exact Or.inr ⟨List.mem_cons_of_mem _ hm, sortsBefore_trans hrt hst⟩
      · intro u hu
        rcases List.mem_cons.mp hu with rfl | hu'
        · rcases h1 with rfl | ⟨_, hrt⟩
          · exact sortsBefore_irrefl r
          · exact sortsBefore_asymm hrt
        · exact h2 u hu'
    · rw [Bool.not_eq_true] at hst
      rw [show pickBetter (some b) t = some b by simp [pickBetter, hst]] at h
      obtain ⟨h1, h2⟩ := ih b r h
      constructor
      · rcases h1 with rfl | ⟨hm, hrb⟩
        · exact Or.inl rfl
        · exact Or.inr ⟨List.mem_cons_of_mem _ hm, hrb⟩
      · intro u hu
        rcases List.mem_cons.mp hu with rfl | hu'
        · rcases h1 with rfl | ⟨_, hrb⟩
          · exact hst
          · exact sortsBefore_false_of_lt hst hrb
        · exact h2 u hu'

lemma firstMin_spec {l : List Todo} {r : Todo} (h : firstMin l = some r) :
    r ∈ l ∧ ∀ t ∈ l, sortsBefore t r = false := by
  cases l with
  | nil => cases h
  | cons t ts =>
    unfold firstMin at h
    rw [List.foldl_cons, show pickBetter none t = some t from rfl] at h
    obtain ⟨h1, h2⟩ := foldl_pickBetter_spec ts t r h
    constructor
    · rcases h1 with rfl | ⟨hm, _⟩
      · exact List.mem_cons_self _ _
      · exact List.mem_cons_of_mem _ hm
    · intro u hu
      rcases List.mem_cons.mp hu with rfl | hu'
      · rcases h1 with rfl | ⟨_, hrt⟩
        · exact sortsBefore_irrefl r
        · exact sortsBefore_asymm hrt
      · exact h2 u hu'

lemma firstMin_eq_none_iff (l : List Todo) : firstMin l = none ↔ l = [] := by
  cases l with
  | nil => simp [firstMin]
  | cons t ts =>
    constructor
    · intro h
      unfold firstMin at h
      rw [List.foldl_cons, show pickBetter none t = some t from rfl] at h
      have := foldl_pickBetter_isSome ts t
      rw [h] at this
      cases this
    · intro h
      cases h

/-! ## Eligibility and getNextTodo lemmas -/

lemma mem_eligibleTodos {m : TodoManager} {t : Todo} :
    t ∈ m.eligibleTodos ↔
      t ∈ m.getAllTodos ∧ t.status = TodoStatus.pending ∧
        m.areDependenciesMet t = true := by
  simp only [TodoManager.eligibleTodos, List.mem_filter, beq_iff_eq]
  tauto

lemma getNextTodo_mem {m : TodoManager} {r : Todo} (h : m.getNextTodo = some r) :
    r ∈ m.getAllTodos ∧ r.status = TodoStatus.pending ∧
      m.areDependenciesMet r = true :=
  mem_eligibleTodos.mp (firstMin_spec h).1

lemma getNextTodo_min {m : TodoManager} {r : Todo} (h : m.getNextTodo = some r) :
    ∀ t ∈ m.eligibleTodos, sortsBefore t r = false :=
  (firstMin_spec h).2

/-! ## Counting lemmas for group-status derivation -/

lemma length_filter_eq_length_iff {α : Type} (p : α → Bool) (l : List α) :
    (l.filter p).length = l.length ↔ ∀ a ∈ l, p a = true := by
  induction l with
  | nil => simp
  | cons a l ih =>
    by_cases h : p a = true
    · simp [h, ih]
    · rw [Bool.not_eq_true] at h
      have hle := List.length_filter_le p l
      simp only [List.filter_cons, h, Bool.false_eq_true, if_false, List.length_cons]
      constructor
      · intro hlen
        exact absurd hlen (by omega)
      · intro hall
        have hpa := hall a (List.mem_cons_self _ _)
        rw [h] at hpa
        cases hpa

lemma length_filter_pos_iff {α : Type} (p : α → Bool) (l : List α) :
    0 < (l.filter p).length ↔ ∃ a ∈ l, p a = true := by
  rw [List.length_pos]
  constructor
  · intro h
    match hm : l.filter p with
    | [] => exact absurd hm h
    | b :: bs =>
      have : b ∈ l.filter p := by rw [hm]; exact List.mem_cons_self _ _
      have := List.mem_filter.mp this
      exact ⟨b, this.1, this.2⟩
  · rintro ⟨a, ha, hpa⟩ hnil
    have : a ∈ l.filter p := List.mem_filter.mpr ⟨ha, hpa⟩
    rw [hnil] at this
    cases this

/-! ## Claim theorems: Task Ledger scheduling -/

/-- Claim C2: `getNextTodo` selects, among the pending todos whose every
dependency resolves to a completed todo, one of maximal priority
(high > medium > low) with ties broken by earliest creation timestamp: any
other eligible todo has strictly lower priority weight, or equal weight and a
creation time no earlier than the returned one.  A todo whose dependencies
are not all completed is never returned, and `none` is returned exactly when
no eligible todo exists. -/
theorem getNextTodo_spec (m : TodoManager) :
    (m.getNextTodo = none ↔ m.eligibleTodos = []) ∧
    (∀ r, m.getNextTodo = some r →
      r ∈ m.getAllTodos ∧ r.status = TodoStatus.pending ∧
        m.areDependenciesMet r = true ∧
        ∀ t ∈ m.getAllTodos, t.status = TodoStatus.pending →
          m.areDependenciesMet t = true →
            priorityWeight t.priority < priorityWeight r.priority ∨
              (priorityWeight t.priority = priorityWeight r.priority ∧
                r.createdAt ≤ t.createdAt)) ∧
    (∀ t, m.areDependenciesMet t = false → m.getNextTodo ≠ some t) := by
  refine ⟨firstMin_eq_none_iff _, ?_, ?_⟩
  · intro r hr
    obtain ⟨hmem, hpend, hdep⟩ := getNextTodo_mem hr
    refine ⟨hmem, hpend, hdep, ?_⟩
    intro t ht hp hd
    have hfalse : sortsBefore t r = false :=
      getNextTodo_min hr t (mem_eligibleTodos.mpr ⟨ht, hp, hd⟩)
    rw [sortsBefore_eq_false_iff] at hfalse
    exact hfalse
  · intro t hdep hsome
    have := (getNextTodo_mem hsome).2.2
    rw [hdep] at this
    cases this

/-- Claim C10: A dependency id that matches no todo in the ledger is treated as
an unmet dependency: a todo listing such an id is never returned by
`getNextTodo`. -/
theorem getNextTodo_unresolved_dependency (m : TodoManager) (t : Todo)
    (d : String) (hd : d ∈ t.dependencies) (hnone : m.findTodo d = none) :
    m.getNextTodo ≠ some t := by
  intro hsome
  have hdep := (getNextTodo_mem hsome).2.2
  unfold TodoManager.areDependenciesMet at hdep
  rw [List.all_eq_true] at hdep
  have hthis := hdep d hd
  rw [hnone] at hthis
  cases hthis

/-- Claim C7, counterexample: The claim requires `status = completed` iff all
member todos are completed, *including groups with zero members*.  For a
group with zero members every member is (vacuously) completed, yet
`updateGroupStatus` sets the status to `pending`, not `completed`. -/
theorem updateGroupStatus_empty_group_counterexample :
    (emptyGroupEx.todos.all fun t => t.status == TodoStatus.completed) = true ∧
    (updateGroupStatus emptyGroupEx 7).status = GroupStatus.pending ∧
    (updateGroupStatus emptyGroupEx 7).status ≠ GroupStatus.completed := by
  decide

/-- Claim C7, amended: After `updateGroupStatus` runs on a group (it is invoked
by `updateTodoStatus` after each status mutation; other mutations do not
re-derive the group status), the group status is `completed` iff the group is
*non-empty* and every member is completed; `in_progress` iff some member is
in progress or completed but not every member is completed; and `pending`
otherwise (in particular for empty groups).  Member todos are unchanged. -/
theorem updateGroupStatus_spec (g : TodoGroup) (now : Nat) :
    (updateGroupStatus g now).todos = g.todos ∧
    ((updateGroupStatus g now).status = GroupStatus.completed ↔
      g.todos ≠ [] ∧ ∀ t ∈ g.todos, t.status = TodoStatus.completed) ∧
    ((updateGroupStatus g now).status = GroupStatus.in_progress ↔
      (∃ t ∈ g.todos, t.status = TodoStatus.in_progress ∨
        t.status = TodoStatus.completed) ∧
      ¬ ∀ t ∈ g.todos, t.status = TodoStatus.completed) ∧
    ((updateGroupStatus g now).status = GroupStatus.pending ↔
      ∀ t ∈ g.todos, t.status ≠ TodoStatus.in_progress ∧
        t.status ≠ TodoStatus.completed) := by
  have hcc : completedCount g.todos = g.todos.length ↔
      ∀ t ∈ g.todos, t.status = TodoStatus.completed := by
    unfold completedCount
    rw [length_filter_eq_length_iff]
    simp [beq_iff_eq]
  have hcpos : 0 < completedCount g.todos ↔
      ∃ t ∈ g.todos, t.status = TodoStatus.completed := by
    unfold completedCount
    rw [length_filter_pos_iff]
    simp [beq_iff_eq]
  have hipos : 0 < inProgressCount g.todos ↔
      ∃ t ∈ g.todos, t.status = TodoStatus.in_progress := by
    unfold inProgressCount
    rw [length_filter_pos_iff]
    simp [beq_iff_eq]
  unfold updateGroupStatus
  by_cases h0 : g.todos.length = 0
  · have hnil : g.todos = [] := List.length_eq_zero.mp h0
    rw [if_pos h0]
    simp [hnil]
  · rw [if_neg h0]
    have hne : g.todos ≠ [] := by
      intro h
      rw [h] at h0
      exact h0 rfl
    by_cases h1 : completedCount g.todos = g.todos.length
    · rw [if_pos h1]
      have hall := hcc.mp h1
      refine ⟨rfl, ⟨fun _ => ⟨hne, hall⟩, fun _ => rfl⟩, ?_, ?_⟩
      · refine ⟨fun h => GroupStatus.noConfusion h, fun hcon => ?_⟩
        exact absurd hall hcon.2
      · refine ⟨fun h => GroupStatus.noConfusion h, fun hcon => ?_⟩
        obtain ⟨t, ht⟩ := List.exists_mem_of_ne_nil g.todos hne
        exact absurd (hall t ht) (hcon t ht).2
    · rw [if_neg h1]
      by_cases h2 : 0 < inProgressCount g.todos ∨ 0 < completedCount g.todos
      · rw [if_pos h2]
        refine ⟨rfl, ?_, ?_, ?_⟩
        · refine ⟨fun h => GroupStatus.noConfusion h, fun hcon => ?_⟩
          exact absurd (hcc.mpr hcon.2) h1
        · refine ⟨fun _ => ⟨?_, fun hall => h1 (hcc.mpr hall)⟩, fun _ => rfl⟩
          rcases h2 with hip | hcp
          · obtain ⟨t, ht, hs⟩ := hipos.mp hip
            exact ⟨t, ht, Or.inl hs⟩
          · obtain ⟨t, ht, hs⟩ := hcpos.mp hcp
            exact ⟨t, ht, Or.inr hs⟩
        · refine ⟨fun h => GroupStatus.noConfusion h, fun hcon => ?_⟩
          exfalso
          rcases h2 with hip | hcp
          · obtain ⟨t, ht, hs⟩ := hipos.mp hip
            exact (hcon t ht).1 hs
          · obtain ⟨t, ht, hs⟩ := hcpos.mp hcp
            exact (hcon t ht).2 hs
      · rw [if_neg h2]
        push_neg at h2
        obtain ⟨hip0, hcp0⟩ := h2
        refine ⟨rfl, ?_, ?_, ?_⟩
        · refine ⟨fun h => GroupStatus.noConfusion h, fun hcon => ?_⟩
          exact absurd (hcc.mpr hcon.2) h1
        · refine ⟨fun h => GroupStatus.noConfusion h, fun hcon => ?_⟩
          exfalso
          obtain ⟨⟨t, ht, hs⟩, _⟩ := hcon
          rcases hs with hs | hs
          · exact absurd (hipos.mpr ⟨t, ht, hs⟩) (by omega)
          · exact absurd (hcpos.mpr ⟨t, ht, hs⟩) (by omega)
        · refine ⟨fun _ => ?_, fun _ => rfl⟩
          intro t ht
          constructor
          · intro hs
            exact absurd (hipos.mpr ⟨t, ht, hs⟩) (by omega)
          · intro hs
            exact absurd (hcpos.mpr ⟨t, ht, hs⟩) (by omega)

/-! ## Ledger lookup lemmas -/

lemma applyStatusChange_id (status : TodoStatus) (now : Nat)
    (actualTokens : Option Nat) (t : Todo) :
    (applyStatusChange status now actualTokens t).id = t.id := by
  unfold applyStatusChange
  cases actualTokens <;> rfl

lemma updateGroupStatus_todos_eq (g : TodoGroup) (now : Nat) :
    (updateGroupStatus g now).todos = g.todos := by
  unfold updateGroupStatus
  split
  · rfl
  · split
    · rfl
    · split <;> rfl

lemma getCurrentTodo_in_progress {m : TodoManager} {t : Todo}
    (h : m.getCurrentTodo = some t) :
    t.status = TodoStatus.in_progress ∧ t ∈ m.getAllTodos := by
  unfold TodoManager.getCurrentTodo at h
  cases hf : m.getAllTodos.filter (fun t => t.status == TodoStatus.in_progress) with
  | nil => rw [hf] at h; cases h
  | cons a as =>
    rw [hf] at h
    injection h with h
    subst h
    have hmem : a ∈ m.getAllTodos.filter (fun t => t.status == TodoStatus.in_progress) := by
      rw [hf]
      exact List.mem_cons_self _ _
    obtain ⟨h1, h2⟩ := List.mem_filter.mp hmem
    rw [beq_iff_eq] at h2
    exact ⟨h2, h1⟩

lemma mem_getAllTodos_of_mem_group {m : TodoManager} {g : TodoGroup} {t : Todo}
    (hg : g ∈ m.groups) (ht : t ∈ g.todos) : t ∈ m.getAllTodos := by
  unfold TodoManager.getAllTodos
  rw [List.mem_flatten]
  exact ⟨g.todos, List.mem_map_of_mem _ hg, ht⟩

lemma findSome?_isSome_of_mem {α β : Type} (f : α → Option β) :
    ∀ (l : List α) (a : α), a ∈ l → (f a).isSome = true →
      (l.findSome? f).isSome = true := by
  intro l
  induction l with
  | nil => intro a ha; cases ha
  | cons x xs ih =>
    intro a ha hf
    rw [List.findSome?_cons]
    cases hx : f x with
    | some b => simp
    | none =>
      rcases List.mem_cons.mp ha with rfl | ha'
      · rw [hx] at hf; cases hf
      · exact ih a ha' hf

lemma findTodo_isSome_of_mem {m : TodoManager} {t : Todo}
    (h : t ∈ m.getAllTodos) : (m.findTodo t.id).isSome = true := by
  unfold TodoManager.getAllTodos at h
  rw [List.mem_flatten] at h
  obtain ⟨l, hl, htl⟩ := h
  rw [List.mem_map] at hl
  obtain ⟨g, hg, rfl⟩ := hl
  unfold TodoManager.findTodo findTodoInGroups
  apply findSome?_isSome_of_mem _ _ g hg
  have : (g.todos.find? fun u => u.id == t.id).isSome = true := by
    rw [List.find?_isSome]
    exact ⟨t, htl, by rw [beq_iff_eq]⟩
  cases hfind : g.todos.find? fun u => u.id == t.id with
  | none => rw [hfind] at this; cases this
  | some u => simp [hfind]

lemma findTodoInGroups_sound :
    ∀ (groups : List TodoGroup) (qid : String) (g : TodoGroup) (t : Todo),
      findTodoInGroups groups qid = some (g, t) →
        g ∈ groups ∧ t ∈ g.todos ∧ t.id = qid := by
  intro groups
  induction groups with
  | nil => intro qid g t h; cases h
  | cons x xs ih =>
    intro qid g t h
    unfold findTodoInGroups at h
    rw [List.findSome?_cons] at h
    cases hx : x.todos.find? fun u => u.id == qid with
    | some u =>
      rw [hx] at h
      simp only [Option.map_some'] at h
      injection h with h
      have h1 : x = g := congrArg Prod.fst h
      have h2 : u = t := congrArg Prod.snd h
      subst h1
      subst h2
      refine ⟨List.mem_cons_self _ _, List.mem_of_find?_eq_some hx, ?_⟩
      have := List.find?_some hx
      rwa [beq_iff_eq] at this
    | none =>
      rw [hx] at h
      simp only [Option.map_none'] at h
      obtain ⟨hg, ht, hid⟩ := ih qid g t h
      exact ⟨List.mem_cons_of_mem _ hg, ht, hid⟩

lemma lookupTodo_sound {m : TodoManager} {qid : String} {t : Todo}
    (h : m.lookupTodo qid = some t) : t ∈ m.getAllTodos ∧ t.id = qid := by
  unfold TodoManager.lookupTodo TodoManager.findTodo at h
  cases hf : findTodoInGroups m.groups qid with
  | none => rw [hf] at h; cases h
  | some p =>
    rw [hf] at h
    simp only [Option.map_some'] at h
    injection h with h
    obtain ⟨hg, ht, hid⟩ := findTodoInGroups_sound m.groups qid p.1 p.2 hf
    subst h
    exact ⟨mem_getAllTodos_of_mem_group hg ht, hid⟩

/-- Replacing the todo with id `todoId` (by an id-preserving mutation) does
not change the result of `find?` for a different id. -/
lemma find?_updateTodoInList_ne (todoId : String) (f : Todo → Todo)
    (hf : ∀ t, (f t).id = t.id) (qid : String) (hne : qid ≠ todoId) :
    ∀ ts : List Todo,
      (updateTodoInList todoId f ts).find? (fun t => t.id == qid) =
        ts.find? (fun t => t.id == qid) := by
  intro ts
  induction ts with
  | nil => rfl
  | cons t ts ih =>
    unfold updateTodoInList
    by_cases h : (t.id == todoId) = true
    · rw [if_pos h]
      rw [beq_iff_eq] at h
      have hpred : ((f t).id == qid) = false := by
        rw [hf t, h, beq_eq_false_iff_ne]
        exact fun hh => hne hh.symm
      have hpred' : (t.id == qid) = false := by
        rw [h, beq_eq_false_iff_ne]
        exact fun hh => hne hh.symm
      rw [List.find?_cons, List.find?_cons, hpred, hpred']
    · rw [if_neg h]
      rw [List.find?_cons, List.find?_cons]
      cases hp : t.id == qid
      · exact ih
      · rfl

/-- The `updateTodoStatus` leaves every todo with a *different* id untouched (as
seen through `lookupTodo`). -/
lemma lookupTodo_updateGroups_ne (todoId : String) (status : TodoStatus)
    (now : Nat) (actualTokens : Option Nat) (qid : String) (hne : qid ≠ todoId) :
    ∀ groups : List TodoGroup,
      (findTodoInGroups (updateGroupsTodoStatus todoId status now actualTokens groups) qid).map Prod.snd =
        (findTodoInGroups groups qid).map Prod.snd := by
  intro groups
  induction groups with
  | nil => rfl
  | cons g gs ih =>
    unfold updateGroupsTodoStatus
    by_cases hany : (g.todos.any fun t => t.id == todoId) = true
    · rw [if_pos hany]
      unfold findTodoInGroups
      rw [List.findSome?_cons, List.findSome?_cons]
      rw [updateGroupStatus_todos_eq]
      rw [find?_updateTodoInList_ne todoId _ (applyStatusChange_id status now actualTokens) qid hne]
      cases hfind : g.todos.find? fun t => t.id == qid with
      | some t0 => simp
      | none => rfl
    · rw [if_neg hany]
      unfold findTodoInGroups
      rw [List.findSome?_cons, List.findSome?_cons]
      cases hfind : g.todos.find? fun t => t.id == qid with
      | some t0 => simp
      | none =>
        simp only [Option.map_none']
        exact ih

/-- Claim C6, counterexample: The claim says `updateTodoStatus` never moves a
todo out of a terminal status.  The source applies any requested transition
without a guard: starting from a ledger whose only todo is `completed`,
`updateTodoStatus` to `pending` succeeds and the todo is afterwards
`pending`. -/
theorem updateTodoStatus_escapes_terminal_counterexample :
    isTerminalStatus doneTodoEx.status = true ∧
    ((doneManagerEx.updateTodoStatus "a1" TodoStatus.pending 5 none).toOption.bind
      fun m2 => (m2.lookupTodo "a1").map Todo.status) = some TodoStatus.pending := by
  decide

/-- Claim C6, amended: `updateTodoStatus` itself applies any requested
transition, including out of terminal statuses (no guard exists); however
`continueFromLastCheckpoint` never auto-resumes a terminal todo: assuming
distinct todo ids, it returns only an `in_progress` todo (resumed) or a
`pending` one (promoted), and every todo in a terminal status is left exactly
as it was. -/
theorem continueFromLastCheckpoint_preserves_terminal (m : TodoManager)
    (now : Nat) (hids : (m.getAllTodos.map Todo.id).Nodup) :
    ∃ r, m.continueFromLastCheckpoint now = Except.ok r ∧
      (∀ t, r.1 = some t →
        t.status = TodoStatus.in_progress ∨ t.status = TodoStatus.pending) ∧
      (∀ qid t0, m.lookupTodo qid = some t0 → isTerminalStatus t0.status = true →
        r.2.lookupTodo qid = some t0) := by
  cases hc : m.getCurrentTodo with
  | some t =>
    have hrun : m.continueFromLastCheckpoint now = Except.ok (some t, m) := by
      unfold TodoManager.continueFromLastCheckpoint
      rw [hc]
    refine ⟨(some t, m), hrun, ?_, ?_⟩
    · intro t' ht'
      injection ht' with ht'
      subst ht'
      exact Or.inl (getCurrentTodo_in_progress hc).1
    · intro qid t0 h _
      exact h
  | none =>
    cases hn : m.getNextTodo with
    | none =>
      have hrun : m.continueFromLastCheckpoint now = Except.ok (none, m) := by
        unfold TodoManager.continueFromLastCheckpoint
        rw [hc, hn]
      refine ⟨(none, m), hrun, ?_, ?_⟩
      · intro t' ht'
        cases ht'
      · intro qid t0 h _
        exact h
    | some t =>
      obtain ⟨hmem, hpend, _⟩ := getNextTodo_mem hn
      have hsome := findTodo_isSome_of_mem hmem
      have hupd : m.updateTodoStatus t.id TodoStatus.in_progress now none =
          Except.ok (TodoManager.mk
            (updateGroupsTodoStatus t.id TodoStatus.in_progress now none m.groups)
            m.currentGroupId) := by
        unfold TodoManager.updateTodoStatus
        cases hp : m.findTodo t.id with
        | none => rw [hp] at hsome; cases hsome
        | some p => rfl
      have hrun : m.continueFromLastCheckpoint now =
          Except.ok (some t, TodoManager.mk
            (updateGroupsTodoStatus t.id TodoStatus.in_progress now none m.groups)
            m.currentGroupId) := by
        unfold TodoManager.continueFromLastCheckpoint
        rw [hc, hn]
        change Except.map (fun m2 => (some t, m2))
          (m.updateTodoStatus t.id TodoStatus.in_progress now none) = _
        rw [hupd]
        rfl
      refine ⟨_, hrun, ?_, ?_⟩
      · intro t' ht'
        injection ht' with ht'
        subst ht'
        exact Or.inr hpend
      · intro qid t0 hlk hterm
        obtain ⟨ht0mem, ht0id⟩ := lookupTodo_sound hlk
        have hne : qid ≠ t.id := by
          intro heq
          have ht0t : t0 = t := by
            apply List.inj_on_of_nodup_map hids ht0mem hmem
            rw [ht0id, heq]
          subst ht0t
          rw [hpend] at hterm
          cases hterm
        show (findTodoInGroups _ qid).map Prod.snd = some t0
        rw [lookupTodo_updateGroups_ne t.id TodoStatus.in_progress now none qid hne m.groups]
        exact hlk

theorem getNextTodo_spec_witness :
    ledgerEx.areDependenciesMet tGatedEx = false ∧
      ledgerEx.getNextTodo ≠ some tGatedEx :=
  ⟨by decide, (getNextTodo_spec ledgerEx).2.2 tGatedEx (by decide)⟩

theorem getNextTodo_unresolved_dependency_witness :
    ghostDepTodoEx.dependencies = ["ghost"] ∧
      ghostLedgerEx.getNextTodo ≠ some ghostDepTodoEx :=
  ⟨rfl, getNextTodo_unresolved_dependency ghostLedgerEx ghostDepTodoEx "ghost"
    (by decide) (by decide)⟩

theorem continueFromLastCheckpoint_preserves_terminal_witness :
    isTerminalStatus doneTodoEx.status = true ∧
      ((mixedManagerEx.continueFromLastCheckpoint 9).toOption.bind
        fun r => r.2.lookupTodo "a1") = some doneTodoEx := by
  obtain ⟨r, hrun, -, hterm⟩ :=
    continueFromLastCheckpoint_preserves_terminal mixedManagerEx 9 (by decide)
  have h2 := hterm "a1" doneTodoEx (by decide) (by decide)
  refine ⟨by decide, ?_⟩
  rw [hrun]
  exact h2

/-- Claim C1, code bug: `isPathSafe` is a bare string-prefix test on the
resolved paths, so a *sibling* directory whose name extends the root string
passes it: with root `/proj`, the fenced-region path `../proj-evil/a.ts`
resolves to `/proj-evil/a.ts` — outside the project root — yet
`isPathSafe` accepts it and the operation flows into the plan built by
`createGenerationPlan`. -/
theorem isPathSafe_prefix_escape :
    pathResolve "/proj" "../proj-evil/a.ts" = "/proj-evil/a.ts" ∧
    resolvesInsideRoot "/proj" "/proj-evil/a.ts" = false ∧
    DirectorySafety.isPathSafe ⟨"/proj"⟩ "/proj-evil/a.ts" = true ∧
    (DirectorySafety.validatePath ⟨"/proj"⟩ "/proj-evil/a.ts").toOption = some () ∧
    (projFgEx.createGenerationPlan noFsEx "f"
        [(some "../proj-evil/a.ts", "x")] [] 0).files.map FileOperation.path =
      ["../proj-evil/a.ts"] := by
  decide

/-- Claim C9, code bug: The doubled backslashes in `sanitizeFeatureName`
(`[^a-z0-9\\s-]` and `\\s+`, taken literally) delete whitespace instead of
collapsing it to hyphens, so the branch name diverges from the slug the spec
describes: `Add User Auth` yields `adduserauth`, not `add-user-auth`. -/
theorem sanitizeFeatureName_deletes_whitespace :
    specSlug "Add User Auth" = "add-user-auth" ∧
    sanitizeFeatureName "Add User Auth" = "adduserauth" ∧
    (projFgEx.createGenerationPlan noFsEx "Add User Auth" [] [] 0).gitStrategy =
      GitStrategy.newBranch ∧
    (projFgEx.createGenerationPlan noFsEx "Add User Auth" [] [] 0).branchName =
      some "hypercode-adduserauth" ∧
    sanitizeFeatureName "Add User Auth" ≠ specSlug "Add User Auth" := by
  decide

/-- Claim C8, counterexample: The fenced-region pass performs no duplicate
check: two fenced regions annotated with the same path yield two operations
with that path, so the parse is not deduplicated. -/
theorem parseGeneratedContent_duplicate_counterexample :
    (parseGeneratedContent projFgEx noFsEx
        [(some "src/a.ts", "x"), (some "src/a.ts", "y")] []).map FileOperation.path =
      ["src/a.ts", "src/a.ts"] ∧
    ¬ ((parseGeneratedContent projFgEx noFsEx
        [(some "src/a.ts", "x"), (some "src/a.ts", "y")] []).map
          FileOperation.path).Nodup := by
  decide

lemma explicitOp_path {fg : FileGenerator} {fsEnv : FsEnv} {fp : String}
    {op : FileOperation} (h : explicitOp fg fsEnv fp = some op) : op.path = fp := by
  simp only [explicitOp] at h
  split at h
  · injection h with h
    subst h
    rfl
  · cases h

lemma parseFallback_spec (fg : FileGenerator) (fsEnv : FsEnv) :
    ∀ (explicits : List String) (files : List FileOperation),
      ∃ fb, parseFallback fg fsEnv explicits files = files ++ fb ∧
        (fb.map FileOperation.path).Nodup ∧
        ∀ p ∈ fb.map FileOperation.path, ∀ f ∈ files, f.path ≠ p := by
  intro explicits
  induction explicits with
  | nil =>
    intro files
    exact ⟨[], by simp [parseFallback], List.nodup_nil, by simp⟩
  | cons fp rest ih =>
    intro files
    unfold parseFallback
    by_cases hdup : (files.any fun f => f.path == fp) = true
    · rw [if_pos hdup]
      exact ih files
    · rw [if_neg hdup]
      cases hop : explicitOp fg fsEnv fp with
      | none =>
        obtain ⟨fb, heq, hnd, hdisj⟩ := ih files
        refine ⟨fb, ?_, hnd, hdisj⟩
        show parseFallback fg fsEnv rest files = files ++ fb
        exact heq
      | some op =>
        obtain ⟨fb, heq, hnd, hdisj⟩ := ih (files ++ [op])
        refine ⟨op :: fb, ?_, ?_, ?_⟩
        · show parseFallback fg fsEnv rest (files ++ [op]) = files ++ op :: fb
          rw [heq, List.append_assoc]
          rfl
        · rw [List.map_cons, List.nodup_cons]
          refine ⟨?_, hnd⟩
          intro hmem
          exact hdisj op.path hmem op (by simp) rfl
        · intro p hp f hf
          rw [List.map_cons] at hp
          rcases List.mem_cons.mp hp with rfl | hp'
          · intro hfeq
            apply hdup
            rw [List.any_eq_true]
            refine ⟨f, hf, ?_⟩
            rw [beq_iff_eq, hfeq, explicitOp_path hop]
          · exact hdisj p hp' f (List.mem_append_left _ hf)

/-- Claim C8, amended: `parseGeneratedContent` is order-preserving — one
operation per accepted fenced-region match, in match order, followed by the
accepted fallback mentions in text order — and the *fallback* pass is
deduplicated against everything already captured (no fallback path repeats,
nor collides with a fenced path).  The fenced pass itself is **not**
deduplicated: only when the fenced paths are pairwise distinct is the whole
result duplicate-free. -/
theorem parseGeneratedContent_order_dedup (fg : FileGenerator) (fsEnv : FsEnv)
    (fenceMatches : List (Option String × String)) (explicitMatches : List String) :
    ∃ fallbackOps,
      parseGeneratedContent fg fsEnv fenceMatches explicitMatches =
        fenceMatches.filterMap (fenceOp fg fsEnv) ++ fallbackOps ∧
      (fallbackOps.map FileOperation.path).Nodup ∧
      (∀ p ∈ fallbackOps.map FileOperation.path,
        ∀ f ∈ fenceMatches.filterMap (fenceOp fg fsEnv), f.path ≠ p) ∧
      (((fenceMatches.filterMap (fenceOp fg fsEnv)).map FileOperation.path).Nodup →
        ((parseGeneratedContent fg fsEnv fenceMatches explicitMatches).map
          FileOperation.path).Nodup) := by
  obtain ⟨fb, heq, hnd, hdisj⟩ :=
    parseFallback_spec fg fsEnv explicitMatches (parsePrimary fg fsEnv fenceMatches)
  refine ⟨fb, heq, hnd, hdisj, ?_⟩
  intro hprim
  show ((parseFallback fg fsEnv explicitMatches
    (parsePrimary fg fsEnv fenceMatches)).map FileOperation.path).Nodup
  rw [heq, List.map_append]
  refine hprim.append hnd ?_
  intro a ha hafb
  rw [List.mem_map] at ha
  obtain ⟨f, hf, rfl⟩ := ha
  exact hdisj f.path hafb f hf rfl

theorem parseGeneratedContent_order_dedup_witness :
    ((parseGeneratedContent projFgEx noFsEx [(some "src/a.ts", "x")]
      ["b.ts", "src/a.ts"]).map FileOperation.path).Nodup := by
  obtain ⟨fb, heq, hnd, hdisj, himp⟩ :=
    parseGeneratedContent_order_dedup projFgEx noFsEx [(some "src/a.ts", "x")]
      ["b.ts", "src/a.ts"]
  exact himp (by decide)

/-! ### The run of the operation loop, in closed form -/

lemma noAutoBefore_succ (env : ExecEnv) (k : Nat) :
    noAutoBefore env (k + 1) =
      (noAutoBefore env k && (env.approvalCallback k != Decision.auto)) := by
  unfold noAutoBefore
  rw [List.range_succ, List.all_append]
  simp

lemma noAutoBefore_true_iff (env : ExecEnv) (i : Nat) :
    noAutoBefore env i = true ↔
      ∀ j, j < i → env.approvalCallback j ≠ Decision.auto := by
  unfold noAutoBefore
  rw [List.all_eq_true]
  constructor
  · intro h j hj
    have := h j (List.mem_range.mpr hj)
    rwa [bne_iff_ne] at this
  · intro h j hj
    rw [bne_iff_ne]
    exact h j (List.mem_range.mp hj)

lemma runOperations_char (env : ExecEnv) (ops : List FileOperation) :
    ∀ (k : Nat) (s : LoopState), s.autoMode = !noAutoBefore env k →
      runOperations env s (List.enumFrom k ops) =
        ⟨!noAutoBefore env (k + ops.length),
         { success := s.result.success && (List.enumFrom k ops).all (opOk env)
           filesCreated :=
             s.result.filesCreated ++ (List.enumFrom k ops).filterMap (opCreated env)
           filesModified :=
             s.result.filesModified ++ (List.enumFrom k ops).filterMap (opModified env)
           filesSkipped :=
             s.result.filesSkipped ++ (List.enumFrom k ops).filterMap (opSkipped env)
           errors := s.result.errors ++ (List.enumFrom k ops).filterMap (opError env)
           gitCommit := s.result.gitCommit
           branchCreated := s.result.branchCreated },
         s.invoked ++ (List.enumFrom k ops).filterMap (opInvoked env)⟩ := by
  induction ops with
  | nil =>
    intro k s hauto
    simp only [List.enumFrom, runOperations, List.foldl_nil, List.length_nil,
      Nat.add_zero, List.filterMap_nil, List.all_nil, List.append_nil, Bool.and_true]
    rw [← hauto]
  | cons op rest ih =>
    intro k s hauto
    have hstep : runOperations env s (List.enumFrom k (op :: rest)) =
        runOperations env (processOperation env k op s) (List.enumFrom (k + 1) rest) := rfl
    rw [hstep]
    have harith : k + 1 + rest.length = k + (rest.length + 1) := by omega
    cases hk : noAutoBefore env k with
    | false =>
      have hsm : s.autoMode = true := by rw [hauto, hk]; rfl
      have heff : effectiveDecision env k = Decision.approve := by
        unfold effectiveDecision
        rw [noAutoBefore_succ, hk, Bool.false_and]
        rfl
      have hs' : (processOperation env k op s).autoMode = !noAutoBefore env (k + 1) := by
        rw [noAutoBefore_succ, hk, Bool.false_and]
        simp [processOperation, hsm]
      rw [ih (k + 1) _ hs', harith]
      cases hex : env.executeFileOperation k with
      | ok u =>
        cases hty : op.type with
        | create =>
          simp [processOperation, hsm, applyApproved, hex, hty, heff, hk,
            opCreated, opModified, opSkipped, opError, opOk, opInvoked,
            List.append_assoc, Bool.and_assoc]
        | modify =>
          simp [processOperation, hsm, applyApproved, hex, hty, heff, hk,
            opCreated, opModified, opSkipped, opError, opOk, opInvoked,
            List.append_assoc, Bool.and_assoc]
        | delete =>
          simp [processOperation, hsm, applyApproved, hex, hty, heff, hk,
            opCreated, opModified, opSkipped, opError, opOk, opInvoked,
            List.append_assoc, Bool.and_assoc]
      | error e =>
        simp [processOperation, hsm, applyApproved, hex, heff, hk,
          opCreated, opModified, opSkipped, opError, opOk, opInvoked,
          List.append_assoc, Bool.and_assoc]
    | true =>
      have hsm : s.autoMode = false := by rw [hauto, hk]; rfl
      cases hd : env.approvalCallback k with
      | auto =>
        have heff : effectiveDecision env k = Decision.approve := by
          unfold effectiveDecision
          rw [noAutoBefore_succ, hk, hd]
          simp
        have hs' : (processOperation env k op s).autoMode = !noAutoBefore env (k + 1) := by
          rw [noAutoBefore_succ, hk, hd]
          simp [processOperation, hsm, hd]
        rw [ih (k + 1) _ hs', harith]
        cases hex : env.executeFileOperation k with
        | ok u =>
          cases hty : op.type with
          | create =>
            simp [processOperation, hsm, hd, applyApproved, hex, hty, heff, hk,
              opCreated, opModified, opSkipped, opError, opOk, opInvoked,
              List.append_assoc, Bool.and_assoc]
          | modify =>
            simp [processOperation, hsm, hd, applyApproved, hex, hty, heff, hk,
              opCreated, opModified, opSkipped, opError, opOk, opInvoked,
              List.append_assoc, Bool.and_assoc]
          | delete =>
            simp [processOperation, hsm, hd, applyApproved, hex, hty, heff, hk,
              opCreated, opModified, opSkipped, opError, opOk, opInvoked,
              List.append_assoc, Bool.and_assoc]
        | error e =>
          simp [processOperation, hsm, hd, applyApproved, hex, heff, hk,
            opCreated, opModified, opSkipped, opError, opOk, opInvoked,
            List.append_assoc, Bool.and_assoc]
      | approve =>
        have heff : effectiveDecision env k = Decision.approve := by
          unfold effectiveDecision
          rw [noAutoBefore_succ, hk, hd]
          simp
        have hs' : (processOperation env k op s).autoMode = !noAutoBefore env (k + 1) := by
          rw [noAutoBefore_succ, hk, hd]
          simp [processOperation, hsm, hd]
        rw [ih (k + 1) _ hs', harith]
        cases hex : env.executeFileOperation k with
        | ok u =>
          cases hty : op.type with
          | create =>
            simp [processOperation, hsm, hd, applyApproved, hex, hty, heff, hk,
              opCreated, opModified, opSkipped, opError, opOk, opInvoked,
              List.append_assoc, Bool.and_assoc]
          | modify =>
            simp [processOperation, hsm, hd, applyApproved, hex, hty, heff, hk,
              opCreated, opModified, opSkipped, opError, opOk, opInvoked,
              List.append_assoc, Bool.and_assoc]
          | delete =>
            simp [processOperation, hsm, hd, applyApproved, hex, hty, heff, hk,
              opCreated, opModified, opSkipped, opError, opOk, opInvoked,
              List.append_assoc, Bool.and_assoc]
        | error e =>
          simp [processOperation, hsm, hd, applyApproved, hex, heff, hk,
            opCreated, opModified, opSkipped, opError, opOk, opInvoked,
            List.append_assoc, Bool.and_assoc]
      | skip =>
        have heff : effectiveDecision env k = Decision.skip := by
          unfold effectiveDecision
          rw [noAutoBefore_succ, hk, hd]
          simp
        have hs' : (processOperation env k op s).autoMode = !noAutoBefore env (k + 1) := by
          rw [noAutoBefore_succ, hk, hd]
          simp [processOperation, hsm, hd]
        rw [ih (k + 1) _ hs', harith]
        simp [processOperation, hsm, hd, heff, hk,
          opCreated, opModified, opSkipped, opError, opOk, opInvoked,
          List.append_assoc, Bool.and_assoc]
      | edit =>
        have heff : effectiveDecision env k = Decision.edit := by
          unfold effectiveDecision
          rw [noAutoBefore_succ, hk, hd]
          simp
        have hs' : (processOperation env k op s).autoMode = !noAutoBefore env (k + 1) := by
          rw [noAutoBefore_succ, hk, hd]
          simp [processOperation, hsm, hd]
        rw [ih (k + 1) _ hs', harith]
        simp [processOperation, hsm, hd, heff, hk,
          opCreated, opModified, opSkipped, opError, opOk, opInvoked,
          List.append_assoc, Bool.and_assoc]

lemma branchSetup_fields (env : ExecEnv) (plan : FileGenerationPlan)
    (r : GenerationResult) :
    (branchSetup env plan r).success = r.success ∧
    (branchSetup env plan r).filesCreated = r.filesCreated ∧
    (branchSetup env plan r).filesModified = r.filesModified ∧
    (branchSetup env plan r).filesSkipped = r.filesSkipped ∧
    (branchSetup env plan r).gitCommit = r.gitCommit := by
  unfold branchSetup
  split
  · split
    · cases env.createBranchResult with
      | ok u => exact ⟨rfl, rfl, rfl, rfl, rfl⟩
      | error e => exact ⟨rfl, rfl, rfl, rfl, rfl⟩
    · exact ⟨rfl, rfl, rfl, rfl, rfl⟩
  · exact ⟨rfl, rfl, rfl, rfl, rfl⟩

lemma autoCommitStep_fields (env : ExecEnv) (cfg : GitConfig)
    (plan : FileGenerationPlan) (r : GenerationResult) :
    (autoCommitStep env cfg plan r).success = r.success ∧
    (autoCommitStep env cfg plan r).filesCreated = r.filesCreated ∧
    (autoCommitStep env cfg plan r).filesModified = r.filesModified ∧
    (autoCommitStep env cfg plan r).filesSkipped = r.filesSkipped ∧
    ∃ extra, (autoCommitStep env cfg plan r).errors = r.errors ++ extra := by
  unfold autoCommitStep
  split
  · cases env.commitResult with
    | ok u => exact ⟨rfl, rfl, rfl, rfl, [], by simp⟩
    | error e => exact ⟨rfl, rfl, rfl, rfl, ["Auto-commit failed: " ++ e], rfl⟩
  · exact ⟨rfl, rfl, rfl, rfl, [], by simp⟩

/-- One `executeGenerationPlan` run in closed form: the loop contributes per
operation according to its effective decision, independently of any state. -/
lemma executeGenerationPlanTrace_eq (fg : FileGenerator) (env : ExecEnv)
    (plan : FileGenerationPlan) :
    executeGenerationPlanTrace fg env plan =
      (autoCommitStep env fg.gitConfig plan
        { success := plan.files.enum.all (opOk env)
          filesCreated := plan.files.enum.filterMap (opCreated env)
          filesModified := plan.files.enum.filterMap (opModified env)
          filesSkipped := plan.files.enum.filterMap (opSkipped env)
          errors := (branchSetup env plan initialResult).errors ++
            plan.files.enum.filterMap (opError env)
          gitCommit := none
          branchCreated := (branchSetup env plan initialResult).branchCreated },
       plan.files.enum.filterMap (opInvoked env)) := by
  obtain ⟨hsuc, hc, hm, hs, hg⟩ := branchSetup_fields env plan initialResult
  unfold executeGenerationPlanTrace
  show (autoCommitStep env fg.gitConfig plan
      (runOperations env ⟨false, branchSetup env plan initialResult, []⟩
        plan.files.enum).result,
    (runOperations env ⟨false, branchSetup env plan initialResult, []⟩
      plan.files.enum).invoked) = _
  rw [show plan.files.enum = List.enumFrom 0 plan.files from rfl,
    runOperations_char env plan.files 0 ⟨false, branchSetup env plan initialResult, []⟩ rfl]
  simp only [hsuc, hc, hm, hs, hg,
    show initialResult.success = true from rfl,
    show initialResult.filesCreated = ([] : List String) from rfl,
    show initialResult.filesModified = ([] : List String) from rfl,
    show initialResult.filesSkipped = ([] : List String) from rfl,
    show initialResult.gitCommit = (none : Option String) from rfl,
    Bool.true_and, List.nil_append]

lemma executeGenerationPlan_success_eq (fg : FileGenerator) (env : ExecEnv)
    (plan : FileGenerationPlan) :
    (fg.executeGenerationPlan env plan).success = plan.files.enum.all (opOk env) := by
  unfold FileGenerator.executeGenerationPlan
  rw [executeGenerationPlanTrace_eq]
  obtain ⟨hsuc, -, -, -, -⟩ := autoCommitStep_fields env fg.gitConfig plan
    { success := plan.files.enum.all (opOk env)
      filesCreated := plan.files.enum.filterMap (opCreated env)
      filesModified := plan.files.enum.filterMap (opModified env)
      filesSkipped := plan.files.enum.filterMap (opSkipped env)
      errors := (branchSetup env plan initialResult).errors ++
        plan.files.enum.filterMap (opError env)
      gitCommit := none
      branchCreated := (branchSetup env plan initialResult).branchCreated }
  exact hsuc

/-- Claim C5: The `success` flag of a plan execution is `false` exactly when
some operation was (effectively) approved and its filesystem application
threw; skipped operations, the stubbed `edit` decision, branch-creation
failures and auto-commit failures never clear it. -/
theorem executeGenerationPlan_success_iff (fg : FileGenerator) (env : ExecEnv)
    (plan : FileGenerationPlan) :
    (fg.executeGenerationPlan env plan).success = false ↔
      ∃ i, i < plan.files.length ∧ effectiveDecision env i = Decision.approve ∧
        ∃ e, env.executeFileOperation i = Except.error e := by
  rw [executeGenerationPlan_success_eq, List.all_eq_false, List.exists_mem_enum]
  constructor
  · rintro ⟨i, hi, hbad⟩
    rw [Bool.not_eq_true] at hbad
    refine ⟨i, hi, ?_⟩
    unfold opOk at hbad
    rcases heff : effectiveDecision env i with _ | _ | _ | _ <;>
      rcases hex : env.executeFileOperation i with u | e <;>
        rw [heff, hex] at hbad <;> first
          | exact ⟨rfl, _, rfl⟩
          | cases hbad
  · rintro ⟨i, hi, heff, e, hex⟩
    refine ⟨i, hi, ?_⟩
    rw [Bool.not_eq_true]
    unfold opOk
    rw [heff, hex]

lemma autoCommitStep_filesCreated (env : ExecEnv) (cfg : GitConfig)
    (plan : FileGenerationPlan) (r : GenerationResult) :
    (autoCommitStep env cfg plan r).filesCreated = r.filesCreated :=
  (autoCommitStep_fields env cfg plan r).2.1

lemma autoCommitStep_filesModified (env : ExecEnv) (cfg : GitConfig)
    (plan : FileGenerationPlan) (r : GenerationResult) :
    (autoCommitStep env cfg plan r).filesModified = r.filesModified :=
  (autoCommitStep_fields env cfg plan r).2.2.1

lemma autoCommitStep_errors_mem (env : ExecEnv) (cfg : GitConfig)
    (plan : FileGenerationPlan) (r : GenerationResult) {x : String}
    (hx : x ∈ r.errors) : x ∈ (autoCommitStep env cfg plan r).errors := by
  obtain ⟨-, -, -, -, extra, herr⟩ := autoCommitStep_fields env cfg plan r
  rw [herr]
  exact List.mem_append_left _ hx

lemma executeGenerationPlanTrace_invoked (fg : FileGenerator) (env : ExecEnv)
    (plan : FileGenerationPlan) :
    (executeGenerationPlanTrace fg env plan).2 =
      plan.files.enum.filterMap (opInvoked env) := by
  rw [executeGenerationPlanTrace_eq]

lemma executeGenerationPlan_filesCreated (fg : FileGenerator) (env : ExecEnv)
    (plan : FileGenerationPlan) :
    (fg.executeGenerationPlan env plan).filesCreated =
      plan.files.enum.filterMap (opCreated env) := by
  unfold FileGenerator.executeGenerationPlan
  rw [executeGenerationPlanTrace_eq]
  exact autoCommitStep_filesCreated env fg.gitConfig plan _

lemma executeGenerationPlan_filesModified (fg : FileGenerator) (env : ExecEnv)
    (plan : FileGenerationPlan) :
    (fg.executeGenerationPlan env plan).filesModified =
      plan.files.enum.filterMap (opModified env) := by
  unfold FileGenerator.executeGenerationPlan
  rw [executeGenerationPlanTrace_eq]
  exact autoCommitStep_filesModified env fg.gitConfig plan _

lemma executeGenerationPlan_errors_mem (fg : FileGenerator) (env : ExecEnv)
    (plan : FileGenerationPlan) {x : String}
    (hx : x ∈ plan.files.enum.filterMap (opError env)) :
    x ∈ (fg.executeGenerationPlan env plan).errors := by
  unfold FileGenerator.executeGenerationPlan
  rw [executeGenerationPlanTrace_eq]
  exact autoCommitStep_errors_mem env fg.gitConfig plan _
    (List.mem_append_right _ hx)

/-- Claim C3: Auto-approve is monotonic: if the callback answers `auto` at
index `j`, then the callback is never consulted past `j` (every consulted
index is `≤ j`), and every later operation is processed as approved — its
effective decision is `approve`, so a successful write lands its path in
`filesCreated`/`filesModified` according to its type, and a failing write
records its error entry. -/
theorem executeGenerationPlan_auto_monotonic (fg : FileGenerator) (env : ExecEnv)
    (plan : FileGenerationPlan) (j : Nat)
    (hj : env.approvalCallback j = Decision.auto) :
    (∀ i ∈ (executeGenerationPlanTrace fg env plan).2, i ≤ j) ∧
    (∀ i op, plan.files[i]? = some op → j < i →
      effectiveDecision env i = Decision.approve ∧
      (∀ u, env.executeFileOperation i = Except.ok u →
        (op.type = OpType.create →
          op.path ∈ (fg.executeGenerationPlan env plan).filesCreated) ∧
        (op.type = OpType.modify →
          op.path ∈ (fg.executeGenerationPlan env plan).filesModified)) ∧
      (∀ e, env.executeFileOperation i = Except.error e →
        failMsg op e ∈ (fg.executeGenerationPlan env plan).errors)) := by
  constructor
  · intro i hi
    rw [executeGenerationPlanTrace_invoked] at hi
    rw [List.mem_filterMap] at hi
    obtain ⟨p, hp, hpi⟩ := hi
    unfold opInvoked at hpi
    split at hpi
    · next hnab =>
      injection hpi with hpi
      subst hpi
      by_contra hgt
      push_neg at hgt
      exact (noAutoBefore_true_iff env p.1).mp hnab j hgt hj
    · cases hpi
  · intro i op hget hji
    have hmem : (i, op) ∈ plan.files.enum := by
      rw [List.mem_enum_iff_getElem?]
      exact hget
    have hnab : noAutoBefore env (i + 1) = false := by
      cases h : noAutoBefore env (i + 1) with
      | false => rfl
      | true => exact absurd hj ((noAutoBefore_true_iff env (i + 1)).mp h j (by omega))
    have heff : effectiveDecision env i = Decision.approve := by
      unfold effectiveDecision
      rw [hnab]
      rfl
    refine ⟨heff, ?_, ?_⟩
    · intro u hex
      constructor
      · intro hty
        rw [executeGenerationPlan_filesCreated, List.mem_filterMap]
        refine ⟨(i, op), hmem, ?_⟩
        unfold opCreated
        rw [heff, hex, hty]
      · intro hty
        rw [executeGenerationPlan_filesModified, List.mem_filterMap]
        refine ⟨(i, op), hmem, ?_⟩
        unfold opModified
        rw [heff, hex, hty]
    · intro e hex
      apply executeGenerationPlan_errors_mem
      rw [List.mem_filterMap]
      refine ⟨(i, op), hmem, ?_⟩
      unfold opError
      rw [heff, hex]

/-- Claim C4: Continue-on-error: for a plan of three `create` operations, all
approved, where only the second filesystem write throws (message `m`), the
run records exactly the first and third paths as created, one error entry
referencing the second operation, overall `success = false` — and nothing
else (no skip, no commit, no branch; strategy `current-branch`, auto-commit
off). -/
theorem executeGenerationPlan_continue_on_error (fg : FileGenerator)
    (env : ExecEnv) (plan : FileGenerationPlan) (o1 o2 o3 : FileOperation)
    (m : String)
    (hfiles : plan.files = [o1, o2, o3])
    (hstrat : plan.gitStrategy = GitStrategy.currentBranch)
    (hcommit : fg.gitConfig.autoCommit = false)
    (happrove : ∀ i, env.approvalCallback i = Decision.approve)
    (h0 : env.executeFileOperation 0 = Except.ok ())
    (h1 : env.executeFileOperation 1 = Except.error m)
    (h2 : env.executeFileOperation 2 = Except.ok ())
    (ht1 : o1.type = OpType.create) (ht2 : o2.type = OpType.create)
    (ht3 : o3.type = OpType.create) :
    fg.executeGenerationPlan env plan =
      { success := false
        filesCreated := [o1.path, o3.path]
        filesModified := []
        filesSkipped := []
        errors := [failMsg o2 m]
        gitCommit := none
        branchCreated := none } := by
  unfold FileGenerator.executeGenerationPlan executeGenerationPlanTrace
  have hbs : branchSetup env plan initialResult = initialResult := by
    unfold branchSetup
    rw [hstrat]
    rfl
  show autoCommitStep env fg.gitConfig plan
    (runOperations env ⟨false, branchSetup env plan initialResult, []⟩
      plan.files.enum).result = _
  rw [hbs, hfiles]
  show autoCommitStep env fg.gitConfig plan
    (runOperations env ⟨false, initialResult, []⟩
      [(0, o1), (1, o2), (2, o3)]).result = _
  have hrun : runOperations env ⟨false, initialResult, []⟩
      [(0, o1), (1, o2), (2, o3)] =
      ⟨false,
       { success := false
         filesCreated := [o1.path, o3.path]
         filesModified := []
         filesSkipped := []
         errors := [failMsg o2 m]
         gitCommit := none
         branchCreated := none },
       [0, 1, 2]⟩ := by
    simp [runOperations, processOperation, applyApproved, initialResult,
      happrove 0, happrove 1, happrove 2, h0, h1, h2, ht1, ht2, ht3]
  rw [hrun]
  unfold autoCommitStep
  rw [hcommit]
  rfl

theorem executeGenerationPlan_continue_on_error_witness :
    projFgEx.executeGenerationPlan approveEnvEx execPlanEx =
      { success := false
        filesCreated := [opAEx.path, opCEx.path]
        filesModified := []
        filesSkipped := []
        errors := [failMsg opBEx "disk full"]
        gitCommit := none
        branchCreated := none } :=
  executeGenerationPlan_continue_on_error projFgEx approveEnvEx execPlanEx
    opAEx opBEx opCEx "disk full" rfl rfl rfl (fun _ => rfl) rfl rfl rfl rfl rfl rfl

theorem executeGenerationPlan_auto_monotonic_witness :
    autoEnvEx.approvalCallback 0 = Decision.auto ∧
      (executeGenerationPlanTrace projFgEx autoEnvEx execPlanEx).2 = [0] ∧
      opBEx.path ∈ (projFgEx.executeGenerationPlan autoEnvEx execPlanEx).filesCreated := by
  have h := executeGenerationPlan_auto_monotonic projFgEx autoEnvEx execPlanEx 0 rfl
  have h2 := h.2 1 opBEx (by decide) (by decide)
  exact ⟨rfl, by decide, ((h2.2.1 () rfl).1 rfl)⟩

end HyperCode
